import Mathlib

/-!
Verification of the comment-stripping core of `src/main.py`
(`remove_comments`).  Text is modelled as `List Char`.  The four regex
substitution passes

  re.sub(r'//.*', '', code)
  re.sub(r'/\*[\s\S]*?\*/', '', code)
  re.sub(r'#.*', '', code)
  re.sub(r'--.*', '', code)

are embedded as executable functions, and the copyright-preservation
branch (`re.findall(r'^(Copyright.*)$', code, re.MULTILINE)` joined with
newlines, plus one newline, prepended to the stripped code) is embedded
over a line splitting of the stripped text.
-/

namespace CommentRemover

/-- The two-character marker `//` of the first pass. -/
def slashSlash : List Char := ['/', '/']

/-- The opening delimiter `/*` of a block comment. -/
def blockOpen : List Char := ['/', '*']

/-- The closing delimiter `*/` of a block comment. -/
def blockClose : List Char := ['*', '/']

/-- The one-character marker `#` of the third pass. -/
def hashMark : List Char := ['#']

/-- The two-character marker `--` of the fourth pass. -/
def dashDash : List Char := ['-', '-']

/-- The literal word `Copyright` anchoring the pattern `^(Copyright.*)$`. -/
def copyrightWord : List Char := ['C', 'o', 'p', 'y', 'r', 'i', 'g', 'h', 't']

/-- One substitution pass `re.sub(m + '.*', '', code)` for a marker `m`
that contains no newline: scanning left to right, once the marker occurs
everything up to (but excluding) the next `'\n'` is dropped, because `.`
does not match `'\n'`.  The Boolean state records whether the scan is
currently inside the matched tail of a line. -/
def stripLMGo (m : List Char) : Bool → List Char → List Char
  | _, [] => []
  | true, c :: cs =>
    if c = '\n' then c :: stripLMGo m false cs
    else stripLMGo m true cs
  | false, c :: cs =>
    if c = '\n' then c :: stripLMGo m false cs
    else if List.isPrefixOf m (c :: cs) then stripLMGo m true cs
    else c :: stripLMGo m false cs

/-- A line-comment pass starts scanning outside any comment. -/
def stripLineComments (m : List Char) (code : List Char) : List Char :=
  stripLMGo m false code

/-- Searching for the first occurrence of the closer `*/`: returns the
suffix just after it, or `none` when no closer occurs.  This is how the
non-greedy `[\s\S]*?\*/` selects the nearest following `*/`. -/
def dropBlock : List Char → Option (List Char)
  | [] => none
  | [_] => none
  | c :: d :: rest => if c = '*' ∧ d = '/' then some rest else dropBlock (d :: rest)

/-- The pass `re.sub(r'/\*[\s\S]*?\*/', '', code)`: scanning left to
right; at `/*` the match succeeds exactly when some `*/` follows the two
opener characters, and then everything through the nearest such `*/` is
deleted and scanning resumes after it; an unterminated `/*` is no match
and is kept.  The fuel argument makes the recursion structural; it is
initialised with the length of the text, which always suffices. -/
def stripBlockGo : Nat → List Char → List Char
  | 0, l => l
  | _ + 1, [] => []
  | _ + 1, [c] => [c]
  | fuel + 1, c :: d :: rest =>
    if c = '/' ∧ d = '*' then
      match dropBlock rest with
      | some rest2 => stripBlockGo fuel rest2
      | none => c :: stripBlockGo fuel (d :: rest)
    else c :: stripBlockGo fuel (d :: rest)

/-- The block-comment pass on a whole text. -/
def stripBlockComments (code : List Char) : List Char :=
  stripBlockGo code.length code

/-- Whether the pattern `/\*[\s\S]*?\*/` matches anywhere in the text:
some `/*` is followed (after the opener) by a `*/`. -/
def hasBM : List Char → Bool
  | [] => false
  | [_] => false
  | c :: d :: rest => if c = '/' ∧ d = '*' then (dropBlock rest).isSome else hasBM (d :: rest)

/-- Splitting a text at `'\n'` into its lines, the way the multiline
anchors `^ ... $` of `re.findall` delimit lines. -/
def splitLines : List Char → List (List Char)
  | [] => [[]]
  | c :: cs =>
    if c = '\n' then [] :: splitLines cs
    else
      match splitLines cs with
      | [] => [[c]]
      | l :: ls => (c :: l) :: ls

/-- `re.findall(r'^(Copyright.*)$', code, re.MULTILINE)`: the lines of
`code` that start with the literal word `Copyright`, in order. -/
def copyrightNotices (code : List Char) : List (List Char) :=
  (splitLines code).filter (fun l => List.isPrefixOf copyrightWord l)

/-- The four unconditional substitution passes, in source order. -/
def stripAll (code : List Char) : List Char :=
  stripLineComments dashDash
    (stripLineComments hashMark
      (stripBlockComments
        (stripLineComments slashSlash code)))

/-- The text transformation performed by `remove_comments` between the
file read and the file write: the four passes always run; when
`removeAll` is false the extracted copyright lines are joined with
newlines and this block plus one `'\n'` is prepended to the stripped
code (`'\n'.join(copyright_notices) + '\n' + code`). -/
def remove_comments (code : List Char) (removeAll : Bool) : List Char :=
  let stripped := stripAll code
  if removeAll then stripped
  else List.intercalate ['\n'] (copyrightNotices stripped) ++ '\n' :: stripped

/-! ### Generic facts about contiguous segments of a text -/

theorem seg_of_pfx {w l : List Char} (h : w <+: l) : w <:+: l := by
  obtain ⟨t, rfl⟩ := h
  exact ⟨[], t, rfl⟩

theorem seg_cons {w l : List Char} (c : Char) (h : w <:+: l) : w <:+: c :: l := by
  obtain ⟨s, t, rfl⟩ := h
  exact ⟨c :: s, t, rfl⟩

theorem seg_trans {w x l : List Char} (h₁ : w <:+: x) (h₂ : x <:+: l) : w <:+: l := by
  obtain ⟨s, t, rfl⟩ := h₁
  obtain ⟨u, v, rfl⟩ := h₂
  exact ⟨u ++ s, t ++ v, by simp⟩

theorem nil_seg (l : List Char) : [] <:+: l := ⟨[], l, rfl⟩

theorem nil_pfx (l : List Char) : [] <+: l := ⟨l, rfl⟩

theorem pfx_nil_elim {w : List Char} (h : w <+: []) : w = [] := by
  obtain ⟨t, ht⟩ := h
  exact (List.append_eq_nil.mp ht).1

theorem seg_nil_elim {w : List Char} (h : w <:+: []) : w = [] := by
  obtain ⟨s, t, ht⟩ := h
  have h1 := (List.append_eq_nil.mp ht).1
  exact (List.append_eq_nil.mp h1).2

theorem seg_len {w l : List Char} (h : w <:+: l) : w.length ≤ l.length := by
  obtain ⟨s, t, rfl⟩ := h
  simp
  omega

theorem pfx_cons {w l : List Char} (c : Char) (h : w <+: l) : c :: w <+: c :: l := by
  obtain ⟨t, rfl⟩ := h
  exact ⟨t, rfl⟩

theorem pfx_cons_elim {w l : List Char} {c : Char} (h : w <+: c :: l) :
    w = [] ∨ ∃ w', w = c :: w' ∧ w' <+: l := by
  obtain ⟨t, ht⟩ := h
  cases w with
  | nil => exact Or.inl rfl
  | cons a w' =>
    simp only [List.cons_append] at ht
    injection ht with h1 h2
    exact Or.inr ⟨w', by rw [h1], ⟨t, h2⟩⟩

theorem seg_cons_elim {w l : List Char} {c : Char} (h : w <:+: c :: l) :
    w = [] ∨ w <:+: l ∨ ∃ w', w = c :: w' ∧ w' <+: l := by
  obtain ⟨s, t, hst⟩ := h
  cases s with
  | nil =>
    cases w with
    | nil => exact Or.inl rfl
    | cons a w' =>
      simp only [List.nil_append, List.cons_append] at hst
      injection hst with h1 h2
      exact Or.inr (Or.inr ⟨w', by rw [h1], ⟨t, h2⟩⟩)
  | cons b s' =>
    simp only [List.cons_append] at hst
    injection hst with h1 h2
    exact Or.inr (Or.inl ⟨s', t, h2⟩)

theorem isP_iff {w l : List Char} : List.isPrefixOf w l = true ↔ w <+: l :=
  List.isPrefixOf_iff_prefix

theorem not_mem_tail {w : List Char} {a c : Char} (h : a ∉ c :: w) : a ∉ w :=
  fun hx => h (List.mem_cons_of_mem _ hx)

/-! ### Facts about the line-comment passes -/

theorem stripLMGo_sublist (m : List Char) (b : Bool) (l : List Char) :
    List.Sublist (stripLMGo m b l) l := by
  induction l generalizing b with
  | nil => cases b <;> simp [stripLMGo]
  | cons c cs ih =>
    cases b with
    | true =>
      rw [stripLMGo]
      by_cases hc : c = '\n'
      · rw [if_pos hc]
        exact List.Sublist.cons₂ c (ih false)
      · rw [if_neg hc]
        exact List.Sublist.cons c (ih true)
    | false =>
      rw [stripLMGo]
      by_cases hc : c = '\n'
      · rw [if_pos hc]
        exact List.Sublist.cons₂ c (ih false)
      · rw [if_neg hc]
        by_cases hp : List.isPrefixOf m (c :: cs) = true
        · rw [if_pos hp]
          exact List.Sublist.cons c (ih true)
        · rw [if_neg hp]
          exact List.Sublist.cons₂ c (ih false)

theorem stripLMGo_head_true {m l : List Char} {d : Char}
    (h : (stripLMGo m true l).head? = some d) : d = '\n' := by
  induction l with
  | nil => simp [stripLMGo] at h
  | cons c cs ih =>
    rw [stripLMGo] at h
    by_cases hc : c = '\n'
    · rw [if_pos hc] at h
      simp only [List.head?_cons, Option.some.injEq] at h
      rw [← h]
      exact hc
    · rw [if_neg hc] at h
      exact ih h

theorem stripLMGo_head_false {m l : List Char} {d : Char}
    (h : (stripLMGo m false l).head? = some d) : l.head? = some d ∨ d = '\n' := by
  cases l with
  | nil => simp [stripLMGo] at h
  | cons c cs =>
    rw [stripLMGo] at h
    by_cases hc : c = '\n'
    · rw [if_pos hc] at h
      simp at h
      left
      simp [h]
    · rw [if_neg hc] at h
      by_cases hp : List.isPrefixOf m (c :: cs) = true
      · rw [if_pos hp] at h
        exact Or.inr (stripLMGo_head_true h)
      · rw [if_neg hp] at h
        simp at h
        left
        simp [h]

theorem stripLM_pfx_true {m w l : List Char} (hw : '\n' ∉ w)
    (h : w <+: stripLMGo m true l) : w = [] := by
  induction l with
  | nil =>
    rw [stripLMGo] at h
    exact pfx_nil_elim h
  | cons c cs ih =>
    rw [stripLMGo] at h
    by_cases hc : c = '\n'
    · rw [if_pos hc] at h
      rcases pfx_cons_elim h with h0 | ⟨w', hw', _⟩
      · exact h0
      · exfalso
        apply hw
        rw [hw', hc]
        exact List.mem_cons_self _ _
    · rw [if_neg hc] at h
      exact ih h

theorem stripLM_pfx {m : List Char} :
    ∀ {l w : List Char}, '\n' ∉ w → w <+: stripLMGo m false l → w <+: l := by
  intro l
  induction l with
  | nil =>
    intro w hw h
    rw [stripLMGo] at h
    rw [pfx_nil_elim h]
  | cons c cs ih =>
    intro w hw h
    rw [stripLMGo] at h
    by_cases hc : c = '\n'
    · rw [if_pos hc] at h
      rcases pfx_cons_elim h with h0 | ⟨w', hw', hpw⟩
      · rw [h0]; exact nil_pfx _
      · exfalso
        apply hw
        rw [hw', hc]
        exact List.mem_cons_self _ _
    · rw [if_neg hc] at h
      by_cases hp : List.isPrefixOf m (c :: cs) = true
      · rw [if_pos hp] at h
        rw [stripLM_pfx_true hw h]
        exact nil_pfx _
      · rw [if_neg hp] at h
        rcases pfx_cons_elim h with h0 | ⟨w', hw', hpw⟩
        · rw [h0]; exact nil_pfx _
        · rw [hw']
          exact pfx_cons c (ih (not_mem_tail (hw' ▸ hw)) hpw)

theorem stripLM_seg {m w l : List Char} (b : Bool) (hw : '\n' ∉ w)
    (h : w <:+: stripLMGo m b l) : w <:+: l := by
  induction l generalizing b with
  | nil =>
    cases b <;> rw [stripLMGo] at h <;> rw [seg_nil_elim h]
  | cons c cs ih =>
    cases b with
    | true =>
      rw [stripLMGo] at h
      by_cases hc : c = '\n'
      · rw [if_pos hc] at h
        rcases seg_cons_elim h with h0 | hs | ⟨w', hw', _⟩
        · rw [h0]; exact nil_seg _
        · exact seg_cons c (ih false hs)
        · exfalso
          apply hw
          rw [hw', hc]
          exact List.mem_cons_self _ _
      · rw [if_neg hc] at h
        exact seg_cons c (ih true h)
    | false =>
      rw [stripLMGo] at h
      by_cases hc : c = '\n'
      · rw [if_pos hc] at h
        rcases seg_cons_elim h with h0 | hs | ⟨w', hw', _⟩
        · rw [h0]; exact nil_seg _
        · exact seg_cons c (ih false hs)
        · exfalso
          apply hw
          rw [hw', hc]
          exact List.mem_cons_self _ _
      · rw [if_neg hc] at h
        by_cases hp : List.isPrefixOf m (c :: cs) = true
        · rw [if_pos hp] at h
          exact seg_cons c (ih true h)
        · rw [if_neg hp] at h
          rcases seg_cons_elim h with h0 | hs | ⟨w', hw', hpw⟩
          · rw [h0]; exact nil_seg _
          · exact seg_cons c (ih false hs)
          · rw [hw']
            exact seg_of_pfx (pfx_cons c (stripLM_pfx (not_mem_tail (hw' ▸ hw)) hpw))

theorem stripLM_noop {m l : List Char} (h : ¬ m <:+: l) :
    stripLMGo m false l = l := by
  induction l with
  | nil => rw [stripLMGo]
  | cons c cs ih =>
    rw [stripLMGo]
    have hcs : ¬ m <:+: cs := fun hx => h (seg_cons c hx)
    by_cases hc : c = '\n'
    · rw [if_pos hc, ih hcs]
    · rw [if_neg hc]
      have hp : ¬ List.isPrefixOf m (c :: cs) = true := by
        intro hx
        exact h (seg_of_pfx (isP_iff.mp hx))
      rw [if_neg hp, ih hcs]

theorem stripLM_free {m l : List Char} (b : Bool) (hm : m ≠ []) (hnl : '\n' ∉ m) :
    ¬ m <:+: stripLMGo m b l := by
  induction l generalizing b with
  | nil =>
    cases b <;> rw [stripLMGo] <;> intro h <;> exact hm (seg_nil_elim h)
  | cons c cs ih =>
    cases b with
    | true =>
      rw [stripLMGo]
      by_cases hc : c = '\n'
      · rw [if_pos hc]
        intro h
        rcases seg_cons_elim h with h0 | hs | ⟨w', hw', _⟩
        · exact hm h0
        · exact ih false hs
        · apply hnl
          rw [hw', hc]
          exact List.mem_cons_self _ _
      · rw [if_neg hc]
        exact ih true
    | false =>
      rw [stripLMGo]
      by_cases hc : c = '\n'
      · rw [if_pos hc]
        intro h
        rcases seg_cons_elim h with h0 | hs | ⟨w', hw', _⟩
        · exact hm h0
        · exact ih false hs
        · apply hnl
          rw [hw', hc]
          exact List.mem_cons_self _ _
      · rw [if_neg hc]
        by_cases hp : List.isPrefixOf m (c :: cs) = true
        · rw [if_pos hp]
          exact ih true
        · rw [if_neg hp]
          intro h
          rcases seg_cons_elim h with h0 | hs | ⟨w', hw', hpw⟩
          · exact hm h0
          · exact ih false hs
          · apply hp
            apply isP_iff.mpr
            rw [hw']
            exact pfx_cons c (stripLM_pfx (not_mem_tail (hw' ▸ hnl)) hpw)

/-! ### Facts about the block-comment pass -/

theorem dropBlock_nil : dropBlock ([] : List Char) = none := rfl

theorem dropBlock_single (c : Char) : dropBlock [c] = none := rfl

theorem dropBlock_cons₂ (c d : Char) (rest : List Char) :
    dropBlock (c :: d :: rest) =
      if c = '*' ∧ d = '/' then some rest else dropBlock (d :: rest) := rfl

theorem hasBM_nil : hasBM [] = false := rfl

theorem hasBM_single (c : Char) : hasBM [c] = false := rfl

theorem hasBM_cons₂ (c d : Char) (rest : List Char) :
    hasBM (c :: d :: rest) =
      if c = '/' ∧ d = '*' then (dropBlock rest).isSome else hasBM (d :: rest) := rfl

theorem stripBlockGo_cons₂ (fuel : Nat) (c d : Char) (rest : List Char) :
    stripBlockGo (fuel + 1) (c :: d :: rest) =
      if c = '/' ∧ d = '*' then
        match dropBlock rest with
        | some rest2 => stripBlockGo fuel rest2
        | none => c :: stripBlockGo fuel (d :: rest)
      else c :: stripBlockGo fuel (d :: rest) := rfl

theorem dropBlock_some_len :
    ∀ {r r2 : List Char}, dropBlock r = some r2 → r2.length + 2 ≤ r.length := by
  intro r
  induction r with
  | nil => intro r2 h; rw [dropBlock_nil] at h; cases h
  | cons c cs ih =>
    intro r2 h
    cases cs with
    | nil => rw [dropBlock_single] at h; cases h
    | cons d rest =>
      rw [dropBlock_cons₂] at h
      by_cases hcd : c = '*' ∧ d = '/'
      · rw [if_pos hcd] at h
        injection h with h2
        rw [← h2]
        simp
      · rw [if_neg hcd] at h
        have hlen := ih h
        simp only [List.length_cons] at hlen ⊢
        omega

theorem dropBlock_some_seg :
    ∀ {r r2 : List Char}, dropBlock r = some r2 → ∃ a, r = a ++ '*' :: '/' :: r2 := by
  intro r
  induction r with
  | nil => intro r2 h; rw [dropBlock_nil] at h; cases h
  | cons c cs ih =>
    intro r2 h
    cases cs with
    | nil => rw [dropBlock_single] at h; cases h
    | cons d rest =>
      rw [dropBlock_cons₂] at h
      by_cases hcd : c = '*' ∧ d = '/'
      · rw [if_pos hcd] at h
        injection h with h2
        exact ⟨[], by rw [hcd.1, hcd.2, h2]; rfl⟩
      · rw [if_neg hcd] at h
        obtain ⟨a, ha⟩ := ih h
        exact ⟨c :: a, by rw [List.cons_append, ← ha]⟩

theorem dropBlock_none_seg :
    ∀ {r : List Char}, dropBlock r = none → ¬ blockClose <:+: r := by
  intro r
  induction r with
  | nil =>
    intro h hseg
    have := seg_nil_elim hseg
    simp [blockClose] at this
  | cons c cs ih =>
    intro h hseg
    cases cs with
    | nil =>
      have := seg_len hseg
      simp [blockClose] at this
    | cons d rest =>
      rw [dropBlock_cons₂] at h
      by_cases hcd : c = '*' ∧ d = '/'
      · rw [if_pos hcd] at h; cases h
      · rw [if_neg hcd] at h
        rcases seg_cons_elim hseg with h0 | hs | ⟨w', hw', hpw⟩
        · simp [blockClose] at h0
        · exact ih h hs
        · have hc : c = '*' ∧ w' = ['/'] := by
            rw [blockClose] at hw'
            injection hw' with h1 h2
            exact ⟨h1.symm, h2.symm⟩
          rcases pfx_cons_elim (hc.2 ▸ hpw) with h0 | ⟨w'', hw'', _⟩
          · cases h0
          · have hd : d = '/' := by injection hw'' with h1 _; exact h1.symm
            exact hcd ⟨hc.1, hd⟩

theorem dropBlock_isSome_of_seg {r : List Char} (h : blockClose <:+: r) :
    (dropBlock r).isSome = true := by
  cases hdb : dropBlock r with
  | none => exact absurd h (dropBlock_none_seg hdb)
  | some r2 => rfl

theorem hasBM_closer : ∀ {x : List Char}, hasBM x = true → blockClose <:+: x := by
  intro x
  induction x with
  | nil => intro h; rw [hasBM_nil] at h; cases h
  | cons c cs ih =>
    intro h
    cases cs with
    | nil => rw [hasBM_single] at h; cases h
    | cons d rest =>
      rw [hasBM_cons₂] at h
      by_cases hcd : c = '/' ∧ d = '*'
      · rw [if_pos hcd] at h
        cases hdb : dropBlock rest with
        | none => rw [hdb] at h; cases h
        | some r2 =>
          obtain ⟨a, ha⟩ := dropBlock_some_seg hdb
          have hsr : blockClose <:+: rest := ⟨a, r2, by rw [ha]; simp [blockClose]⟩
          exact seg_cons c (seg_cons d hsr)
      · rw [if_neg hcd] at h
        exact seg_cons c (ih h)

theorem hasBM_eq_false {x : List Char} (h : ¬ blockClose <:+: x) : hasBM x = false := by
  cases hx : hasBM x with
  | false => rfl
  | true => exact absurd (hasBM_closer hx) h

theorem hasBM_cons_eq {c : Char} {x : List Char}
    (h : ¬ (c = '/' ∧ x.head? = some '*')) : hasBM (c :: x) = hasBM x := by
  cases x with
  | nil => rw [hasBM_single, hasBM_nil]
  | cons e x' =>
    rw [hasBM_cons₂, if_neg]
    intro hx
    exact h ⟨hx.1, by rw [hx.2]; rfl⟩

theorem hasBM_cons_true {c : Char} {cs : List Char} (h : hasBM cs = true) :
    hasBM (c :: cs) = true := by
  cases cs with
  | nil => rw [hasBM_nil] at h; cases h
  | cons d rest =>
    rw [hasBM_cons₂]
    by_cases hcd : c = '/' ∧ d = '*'
    · rw [if_pos hcd]
      have hrest : hasBM rest = true := by
        rw [hcd.2] at h
        rwa [hasBM_cons_eq (by simp)] at h
      exact dropBlock_isSome_of_seg (hasBM_closer hrest)
    · rw [if_neg hcd]
      exact h

theorem hasBM_opener : ∀ {x : List Char}, hasBM x = true → blockOpen <:+: x := by
  intro x
  induction x with
  | nil => intro h; rw [hasBM_nil] at h; cases h
  | cons c cs ih =>
    intro h
    cases cs with
    | nil => rw [hasBM_single] at h; cases h
    | cons d rest =>
      rw [hasBM_cons₂] at h
      by_cases hcd : c = '/' ∧ d = '*'
      · exact ⟨[], rest, by rw [blockOpen, hcd.1, hcd.2]; rfl⟩
      · rw [if_neg hcd] at h
        exact seg_cons c (ih h)

theorem block_noop : ∀ (fuel : Nat) {l : List Char}, hasBM l = false →
    stripBlockGo fuel l = l := by
  intro fuel
  induction fuel with
  | zero => intro l _; rfl
  | succ fuel ih =>
    intro l h
    match l with
    | [] => rfl
    | [c] => rfl
    | c :: d :: rest =>
      rw [stripBlockGo_cons₂]
      by_cases hcd : c = '/' ∧ d = '*'
      · rw [if_pos hcd]
        rw [hasBM_cons₂, if_pos hcd] at h
        have hdb : dropBlock rest = none := by
          cases hdb : dropBlock rest with
          | none => rfl
          | some r2 => rw [hdb] at h; cases h
        rw [hdb]
        have hrest : hasBM (d :: rest) = false := by
          rw [hcd.2, hasBM_cons_eq (by simp)]
          exact hasBM_eq_false (dropBlock_none_seg hdb)
        rw [ih hrest]
      · rw [if_neg hcd]
        rw [hasBM_cons₂, if_neg hcd] at h
        rw [ih h]

theorem block_head : ∀ (fuel : Nat) {l : List Char} {d : Char},
    (stripBlockGo fuel l).head? = some d →
    l.head? = some d ∨ l.head? = some '/' := by
  intro fuel
  induction fuel with
  | zero => intro l d h; exact Or.inl h
  | succ fuel ih =>
    intro l d h
    match l with
    | [] => cases h
    | [c] => exact Or.inl h
    | c :: e :: rest =>
      rw [stripBlockGo_cons₂] at h
      by_cases hcd : c = '/' ∧ e = '*'
      · rw [if_pos hcd] at h
        right
        rw [hcd.1]
        rfl
      · rw [if_neg hcd] at h
        exact Or.inl h

theorem block_ss : ∀ (fuel : Nat) {l : List Char}, ¬ slashSlash <:+: l →
    ¬ slashSlash <:+: stripBlockGo fuel l := by
  intro fuel
  induction fuel with
  | zero => intro l h; exact h
  | succ fuel ih =>
    intro l h
    match l with
    | [] => exact h
    | [c] => exact h
    | c :: d :: rest =>
      rw [stripBlockGo_cons₂]
      by_cases hcd : c = '/' ∧ d = '*'
      · rw [if_pos hcd]
        cases hdb : dropBlock rest with
        | some r2 =>
          apply ih
          intro hseg
          apply h
          obtain ⟨a, ha⟩ := dropBlock_some_seg hdb
          have hr2 : r2 <:+: rest := ⟨a ++ blockClose, [], by rw [ha, blockClose]; simp⟩
          exact seg_cons c (seg_cons d (seg_trans hseg hr2))
        | none =>
          have hrest : hasBM (d :: rest) = false := by
            rw [hcd.2, hasBM_cons_eq (by simp)]
            exact hasBM_eq_false (dropBlock_none_seg hdb)
          show ¬ slashSlash <:+: c :: stripBlockGo fuel (d :: rest)
          rw [block_noop fuel hrest]
          exact h
      · rw [if_neg hcd]
        intro hseg
        rcases seg_cons_elim hseg with h0 | hs | ⟨w', hw', hpw⟩
        · simp [slashSlash] at h0
        · exact ih (fun hx => h (seg_cons c hx)) hs
        · have hc : c = '/' ∧ w' = ['/'] := by
            rw [slashSlash] at hw'
            injection hw' with h1 h2
            exact ⟨h1.symm, h2.symm⟩
          obtain ⟨t, ht⟩ := hc.2 ▸ hpw
          have hhead : (stripBlockGo fuel (d :: rest)).head? = some '/' := by
            rw [← ht]
            rfl
          have hd : d = '/' := by
            rcases block_head fuel hhead with h1 | h1 <;> simpa using h1
          apply h
          exact ⟨[], rest, by rw [slashSlash, hc.1, hd]; rfl⟩

theorem block_hasBM : ∀ (fuel : Nat) {l : List Char}, ¬ slashSlash <:+: l →
    l.length ≤ fuel → hasBM (stripBlockGo fuel l) = false := by
  intro fuel
  induction fuel with
  | zero =>
    intro l _ hlen
    have : l = [] := List.length_eq_zero.mp (Nat.le_zero.mp hlen)
    rw [this]
    rfl
  | succ fuel ih =>
    intro l h hlen
    match l with
    | [] => rfl
    | [c] => rfl
    | c :: d :: rest =>
      rw [stripBlockGo_cons₂]
      by_cases hcd : c = '/' ∧ d = '*'
      · rw [if_pos hcd]
        cases hdb : dropBlock rest with
        | some r2 =>
          apply ih
          · intro hseg
            apply h
            obtain ⟨a, ha⟩ := dropBlock_some_seg hdb
            have hr2 : r2 <:+: rest := ⟨a ++ blockClose, [], by rw [ha, blockClose]; simp⟩
            exact seg_cons c (seg_cons d (seg_trans hseg hr2))
          · have := dropBlock_some_len hdb
            simp only [List.length_cons] at hlen
            omega
        | none =>
          have hrest : hasBM (d :: rest) = false := by
            rw [hcd.2, hasBM_cons_eq (by simp)]
            exact hasBM_eq_false (dropBlock_none_seg hdb)
          show hasBM (c :: stripBlockGo fuel (d :: rest)) = false
          rw [block_noop fuel hrest, hasBM_cons₂, if_pos hcd, hdb]
          rfl
      · rw [if_neg hcd]
        by_cases hco : c = '/' ∧ (stripBlockGo fuel (d :: rest)).head? = some '*'
        · exfalso
          rcases block_head fuel hco.2 with h1 | h1
          · have hd : d = '*' := by simpa using h1
            exact hcd ⟨hco.1, hd⟩
          · have hd : d = '/' := by simpa using h1
            apply h
            exact ⟨[], rest, by simp [slashSlash, hco.1, hd]⟩
        · rw [hasBM_cons_eq hco]
          apply ih
          · exact fun hx => h (seg_cons c hx)
          · simp only [List.length_cons] at hlen ⊢
            omega

theorem block_sublist : ∀ (fuel : Nat) (l : List Char),
    List.Sublist (stripBlockGo fuel l) l := by
  intro fuel
  induction fuel with
  | zero => intro l; exact List.Sublist.refl l
  | succ fuel ih =>
    intro l
    match l with
    | [] => exact List.Sublist.refl _
    | [c] => exact List.Sublist.refl _
    | c :: d :: rest =>
      rw [stripBlockGo_cons₂]
      by_cases hcd : c = '/' ∧ d = '*'
      · rw [if_pos hcd]
        cases hdb : dropBlock rest with
        | some r2 =>
          have h1 : List.Sublist r2 rest := by
            obtain ⟨a, ha⟩ := dropBlock_some_seg hdb
            rw [ha]
            have : a ++ '*' :: '/' :: r2 = (a ++ ['*', '/']) ++ r2 := by simp
            rw [this]
            exact List.sublist_append_right _ _
          exact ((ih r2).trans h1).trans
            ((List.Sublist.cons d (List.Sublist.refl rest)).trans
              (List.Sublist.cons c (List.Sublist.refl (d :: rest))))
        | none => exact List.Sublist.cons₂ c (ih (d :: rest))
      · rw [if_neg hcd]
        exact List.Sublist.cons₂ c (ih (d :: rest))

/-! ### A block match in the output of a line pass reflects to its input -/

theorem hasBM_reflect_lm {m : List Char} (hm : m ≠ []) (hmh : m.head? ≠ some '*') :
    ∀ {l : List Char} (b : Bool), hasBM (stripLMGo m b l) = true → hasBM l = true := by
  intro l
  induction l with
  | nil =>
    intro b h
    cases b <;> rw [stripLMGo] at h <;> rw [hasBM_nil] at h <;> cases h
  | cons c cs ih =>
    intro b h
    have hnlcase : c = '\n' →
        hasBM (c :: stripLMGo m false cs) = true → hasBM (c :: cs) = true := by
      intro hc hx
      rw [hasBM_cons_eq (by rw [hc]; simp)] at hx
      exact hasBM_cons_true (ih false hx)
    cases b with
    | true =>
      rw [stripLMGo] at h
      by_cases hc : c = '\n'
      · rw [if_pos hc] at h
        exact hnlcase hc h
      · rw [if_neg hc] at h
        exact hasBM_cons_true (ih true h)
    | false =>
      rw [stripLMGo] at h
      by_cases hc : c = '\n'
      · rw [if_pos hc] at h
        exact hnlcase hc h
      · rw [if_neg hc] at h
        by_cases hp : List.isPrefixOf m (c :: cs) = true
        · rw [if_pos hp] at h
          exact hasBM_cons_true (ih true h)
        · rw [if_neg hp] at h
          by_cases hco : c = '/' ∧ (stripLMGo m false cs).head? = some '*'
          · rcases stripLMGo_head_false hco.2 with hhd | hhd
            · cases cs with
              | nil => cases hhd
              | cons e cs₂ =>
                have he : e = '*' := by simpa using hhd
                subst he
                have hPF : List.isPrefixOf m ('*' :: cs₂) = false := by
                  cases hb : List.isPrefixOf m ('*' :: cs₂) with
                  | false => rfl
                  | true =>
                    exfalso
                    rcases pfx_cons_elim (isP_iff.mp hb) with h0 | ⟨m', hm', _⟩
                    · exact hm h0
                    · exact hmh (by rw [hm']; rfl)
                rw [stripLMGo, if_neg (show ¬ ('*' = '\n') by decide), if_neg
                  (by rw [hPF]; simp)] at h
                rw [hco.1] at h
                rw [hasBM_cons₂, if_pos (by exact ⟨rfl, rfl⟩)] at h
                have hcl : blockClose <:+: stripLMGo m false cs₂ := by
                  cases hdb : dropBlock (stripLMGo m false cs₂) with
                  | none => rw [hdb] at h; cases h
                  | some r2 =>
                    obtain ⟨a, ha⟩ := dropBlock_some_seg hdb
                    exact ⟨a, r2, by rw [ha]; simp [blockClose]⟩
                have hcl2 : blockClose <:+: cs₂ :=
                  stripLM_seg false (by decide) hcl
                rw [hco.1, hasBM_cons₂, if_pos (by exact ⟨rfl, rfl⟩)]
                exact dropBlock_isSome_of_seg hcl2
            · exact absurd hhd (by decide)
          · rw [hasBM_cons_eq hco] at h
            exact hasBM_cons_true (ih false h)

/-! ### The composite of the four passes -/

theorem stripAll_eq (t : List Char) :
    stripAll t =
      stripLineComments dashDash
        (stripLineComments hashMark
          (stripBlockComments
            (stripLineComments slashSlash t))) := rfl

theorem stripAll_ss (t : List Char) : ¬ slashSlash <:+: stripAll t := by
  have h1 : ¬ slashSlash <:+: stripLineComments slashSlash t :=
    stripLM_free false (by decide) (by decide)
  have h2 : ¬ slashSlash <:+: stripBlockComments (stripLineComments slashSlash t) :=
    block_ss _ h1
  have h3 : ¬ slashSlash <:+:
      stripLineComments hashMark (stripBlockComments (stripLineComments slashSlash t)) :=
    fun hx => h2 (stripLM_seg false (by decide) hx)
  exact fun hx => h3 (stripLM_seg false (by decide) hx)

theorem hasBM_lm_false {m : List Char} (hm : m ≠ []) (hmh : m.head? ≠ some '*')
    {l : List Char} (h : hasBM l = false) :
    hasBM (stripLMGo m false l) = false := by
  cases hx : hasBM (stripLMGo m false l) with
  | false => rfl
  | true =>
    rw [hasBM_reflect_lm hm hmh false hx] at h
    cases h

theorem stripAll_hasBM (t : List Char) : hasBM (stripAll t) = false := by
  have h1 : ¬ slashSlash <:+: stripLineComments slashSlash t :=
    stripLM_free false (by decide) (by decide)
  have h2 : hasBM (stripBlockComments (stripLineComments slashSlash t)) = false :=
    block_hasBM _ h1 (Nat.le_refl _)
  have h3 := hasBM_lm_false (m := hashMark) (by decide) (by decide) h2
  exact hasBM_lm_false (m := dashDash) (by decide) (by decide) h3

theorem stripAll_hash (t : List Char) : ¬ hashMark <:+: stripAll t := by
  have h3 : ¬ hashMark <:+:
      stripLineComments hashMark (stripBlockComments (stripLineComments slashSlash t)) :=
    stripLM_free false (by decide) (by decide)
  exact fun hx => h3 (stripLM_seg false (by decide) hx)

theorem stripAll_dash (t : List Char) : ¬ dashDash <:+: stripAll t :=
  stripLM_free false (by decide) (by decide)

theorem stripAll_noop {t : List Char} (h1 : ¬ slashSlash <:+: t)
    (hbm : hasBM t = false) (h3 : ¬ hashMark <:+: t) (h4 : ¬ dashDash <:+: t) :
    stripAll t = t := by
  rw [stripAll_eq]
  unfold stripLineComments stripBlockComments
  rw [stripLM_noop h1, block_noop _ hbm, stripLM_noop h3, stripLM_noop h4]

theorem stripAll_idem (t : List Char) : stripAll (stripAll t) = stripAll t :=
  stripAll_noop (stripAll_ss t) (stripAll_hasBM t) (stripAll_hash t) (stripAll_dash t)

theorem stripAll_sublist (t : List Char) : List.Sublist (stripAll t) t :=
  ((stripLMGo_sublist dashDash false _).trans
    ((stripLMGo_sublist hashMark false _).trans
      ((block_sublist _ _).trans (stripLMGo_sublist slashSlash false t))))

/-! ### Facts about the copyright-extraction branch -/

theorem splitLines_no_nl {t : List Char} (h : '\n' ∉ t) : splitLines t = [t] := by
  induction t with
  | nil => rfl
  | cons c cs ih =>
    have hc : ¬ c = '\n' := by
      intro hx
      exact h (hx ▸ List.mem_cons_self c cs)
    rw [splitLines, if_neg hc, ih (not_mem_tail h)]

theorem intercalate_single (x : List Char) : List.intercalate ['\n'] [x] = x := by
  simp [List.intercalate]

theorem remove_comments_true (t : List Char) : remove_comments t true = stripAll t := rfl

theorem remove_comments_false (t : List Char) :
    remove_comments t false =
      List.intercalate ['\n'] (copyrightNotices (stripAll t)) ++ '\n' :: stripAll t := rfl

theorem notices_ne_nil_iff (t : List Char) :
    copyrightNotices t ≠ [] ↔
      ∃ lin ∈ splitLines t, List.isPrefixOf copyrightWord lin = true := by
  rw [copyrightNotices, Ne, List.filter_eq_nil_iff]
  push_neg
  simp

/-! ## The claims -/

/-- C1, counterexample: the claim states that for marker-free text,
`strip(text, false) == strip(text, true) == text`.  The text `"code"` is
free of all five markers, yet `remove_comments "code" false = "\ncode"`,
because a `'\n'` is prepended unconditionally, so the `removeAll = false`
equality fails. -/
theorem claim_C1_counterexample :
    (¬ slashSlash <:+: ("code".toList) ∧ ¬ blockOpen <:+: ("code".toList) ∧
     ¬ blockClose <:+: ("code".toList) ∧ ¬ hashMark <:+: ("code".toList) ∧
     ¬ dashDash <:+: ("code".toList)) ∧
    remove_comments ("code".toList) false ≠ ("code".toList) := by
  constructor
  · refine ⟨by decide, by decide, by decide, by decide, by decide⟩
  · decide

/-- C1, amended: for every text containing no comment markers,
`strip(text, true) = text`, while `strip(text, false)` equals the joined
copyright block plus one `'\n'` prepended to the unchanged text (so it is
never literally `text`), and the prepended block is nonempty exactly when
some line of the text matches the copyright pattern. -/
theorem claim_C1_no_markers {t : List Char}
    (h1 : ¬ slashSlash <:+: t) (h2 : ¬ blockOpen <:+: t) (h3 : ¬ blockClose <:+: t)
    (h4 : ¬ hashMark <:+: t) (h5 : ¬ dashDash <:+: t) :
    remove_comments t true = t ∧
    remove_comments t false = List.intercalate ['\n'] (copyrightNotices t) ++ '\n' :: t ∧
    (copyrightNotices t ≠ [] ↔
      ∃ lin ∈ splitLines t, List.isPrefixOf copyrightWord lin = true) := by
  have hna : stripAll t = t := stripAll_noop h1 (hasBM_eq_false h3) h4 h5
  refine ⟨?_, ?_, notices_ne_nil_iff t⟩
  · rw [remove_comments_true, hna]
  · rw [remove_comments_false, hna]

/-- Witness for C1 (amended) at the marker-free text
`"Copyright 2024 X\ncode"`. -/
theorem claim_C1_no_markers_witness :
    (¬ slashSlash <:+: ("Copyright 2024 X\ncode".toList)) ∧
    remove_comments ("Copyright 2024 X\ncode".toList) true =
      ("Copyright 2024 X\ncode".toList) := by
  constructor
  · decide
  · exact (claim_C1_no_markers (by decide) (by decide) (by decide) (by decide)
      (by decide)).1

/-- C2: the core stripping with `removeAll = true` is idempotent:
stripping already-stripped text changes nothing further. -/
theorem claim_C2_idempotent (t : List Char) :
    remove_comments (remove_comments t true) true = remove_comments t true :=
  stripAll_idem t

/-- C3: the core stripping step is a deterministic pure function of
exactly the input text and the `removeAll` flag: equal inputs give equal
outputs. -/
theorem claim_C3_deterministic (t₁ t₂ : List Char) (b₁ b₂ : Bool)
    (ht : t₁ = t₂) (hb : b₁ = b₂) :
    remove_comments t₁ b₁ = remove_comments t₂ b₂ := by
  rw [ht, hb]

/-- Witness for C3 at a concrete input. -/
theorem claim_C3_deterministic_witness :
    remove_comments ("a".toList) true = remove_comments ("a".toList) true :=
  claim_C3_deterministic ("a".toList) ("a".toList) true true rfl rfl

/-- C4: when `removeAll = false` and the input is exactly one copyright
line (no newline, starts with `Copyright`, no comment markers), the
output is that line duplicated: once from the prepended extraction
block, once from the body. -/
theorem claim_C4_duplication {t : List Char} (hnl : '\n' ∉ t)
    (hcp : List.isPrefixOf copyrightWord t = true)
    (h1 : ¬ slashSlash <:+: t) (h2 : ¬ blockOpen <:+: t) (h3 : ¬ blockClose <:+: t)
    (h4 : ¬ hashMark <:+: t) (h5 : ¬ dashDash <:+: t) :
    remove_comments t false = t ++ '\n' :: t := by
  have hna : stripAll t = t := stripAll_noop h1 (hasBM_eq_false h3) h4 h5
  have hnot : copyrightNotices t = [t] := by
    rw [copyrightNotices, splitLines_no_nl hnl]
    simp [hcp]
  rw [remove_comments_false, hna, hnot, intercalate_single]

/-- Witness for C4 at the single copyright line `"Copyright 2024"`. -/
theorem claim_C4_duplication_witness :
    remove_comments ("Copyright 2024".toList) false =
      ("Copyright 2024".toList) ++ '\n' :: ("Copyright 2024".toList) :=
  claim_C4_duplication (by decide) (by decide) (by decide) (by decide) (by decide)
    (by decide) (by decide)

/-- C5: the four comment-removal passes run unconditionally for both
values of `removeAll` (both outputs are built from the same
`stripAll`), and a copyright notice lying after a `//`, `#`, or `--`
marker or inside a `/* */` block is removed before any extraction, so it
is not preserved even when `removeAll = false`. -/
theorem claim_C5_unconditional :
    (∀ t : List Char, remove_comments t true = stripAll t) ∧
    (∀ t : List Char, remove_comments t false =
      List.intercalate ['\n'] (copyrightNotices (stripAll t)) ++ '\n' :: stripAll t) ∧
    ¬ copyrightWord <:+: remove_comments ("// Copyright 2024 A\ncode".toList) false ∧
    ¬ copyrightWord <:+: remove_comments ("/* Copyright 2024 A */\ncode".toList) false ∧
    ¬ copyrightWord <:+: remove_comments ("# Copyright 2024 A\ncode".toList) false ∧
    ¬ copyrightWord <:+: remove_comments ("-- Copyright 2024 A\ncode".toList) false :=
  ⟨remove_comments_true, remove_comments_false, by decide, by decide, by decide,
    by decide⟩

/-- C6: a text containing an unterminated `/*` (no following `*/`, and
no other comment markers) is left unchanged: the block pass finds no
match, and the whole stripping is the identity on it. -/
theorem claim_C6_unterminated {t : List Char} (hop : blockOpen <:+: t)
    (hcl : ¬ blockClose <:+: t) (h1 : ¬ slashSlash <:+: t)
    (h4 : ¬ hashMark <:+: t) (h5 : ¬ dashDash <:+: t) :
    stripBlockComments t = t ∧ remove_comments t true = t := by
  have hbm : hasBM t = false := hasBM_eq_false hcl
  refine ⟨block_noop _ hbm, ?_⟩
  rw [remove_comments_true]
  exact stripAll_noop h1 hbm h4 h5

/-- Witness for C6 at `"a/*b"`. -/
theorem claim_C6_unterminated_witness :
    stripBlockComments ("a/*b".toList) = ("a/*b".toList) ∧
    remove_comments ("a/*b".toList) true = ("a/*b".toList) :=
  claim_C6_unterminated (by decide) (by decide) (by decide) (by decide) (by decide)

/-- C7: `strip("Copyright 2024 Example\n// comment\ncode", false)` yields
output whose first line is `"Copyright 2024 Example"`, followed by the
comment-stripped remainder of the input (which is
`"Copyright 2024 Example\n\ncode"`). -/
theorem claim_C7_example :
    remove_comments ("Copyright 2024 Example\n// comment\ncode".toList) false =
      ("Copyright 2024 Example".toList) ++ '\n' ::
        stripAll ("Copyright 2024 Example\n// comment\ncode".toList) ∧
    stripAll ("Copyright 2024 Example\n// comment\ncode".toList) =
      ("Copyright 2024 Example\n\ncode".toList) :=
  ⟨by decide, by decide⟩

/-- C8: `strip("/* block\ncomment */\nkeep", true) = "\nkeep"`: a block
comment spanning a line boundary is removed in full. -/
theorem claim_C8_example :
    remove_comments ("/* block\ncomment */\nkeep".toList) true = ("\nkeep".toList) := by
  decide

/-- C9: for every input text, `strip(text, true)` is a subsequence of the
text (the passes only delete characters), and in particular the output is
never longer than the input. -/
theorem claim_C9_subsequence (t : List Char) :
    List.Sublist (remove_comments t true) t ∧
    (remove_comments t true).length ≤ t.length := by
  have h := stripAll_sublist t
  rw [remove_comments_true]
  exact ⟨h, h.length_le⟩

/-- C10: for every input text, the `removeAll = false` output is the
newline-joined extracted copyright lines, then one `'\n'`, then the
stripped text; with zero matching lines this degenerates to `'\n'`
prepended to the stripped text. -/
theorem claim_C10_structure (t : List Char) :
    remove_comments t false =
      List.intercalate ['\n'] (copyrightNotices (stripAll t)) ++ '\n' :: stripAll t ∧
    (copyrightNotices (stripAll t) = [] →
      remove_comments t false = '\n' :: stripAll t) := by
  refine ⟨remove_comments_false t, fun h => ?_⟩
  rw [remove_comments_false, h]
  rfl

/-- Witness for C10 at `"x"`, which has no copyright line. -/
theorem claim_C10_structure_witness :
    copyrightNotices (stripAll ("x".toList)) = [] ∧
    remove_comments ("x".toList) false = '\n' :: stripAll ("x".toList) :=
  ⟨by decide, (claim_C10_structure ("x".toList)).2 (by decide)⟩

end CommentRemover
